import Mathlib

/-!
Verification of the mosaic-app tile-matching and composition pipeline.

The Go sources are shallowly embedded:
* `float64` arithmetic on color channels is modelled by exact rational
  arithmetic (`ℚ`); all channel values arising in the program are produced by
  Go's `RGBA()` pixel reads (16-bit accumulation, each channel in `0..65535`)
  and averages thereof, where `float64` is exact enough that the rational
  model is faithful for the comparisons performed.
* a Go `map[string][3]float64` is modelled as an association list
  `List (String × Color)` with pairwise distinct keys; the list order stands
  for the (unspecified) map iteration order, and theorems quantify over it.
* `math.Sqrt` (`Distance` in `lib/img/img.go`) is modelled by `Real.sqrt`;
  the executable scan `nearestScan` compares squared distances against the
  squared initial threshold, which agrees with the source's comparisons of
  square roots by strict monotonicity of `Real.sqrt` (lemmas
  `distance_lt_distance_iff` and `distance_lt_million_iff` below).
-/

namespace MosaicApp

/-- Color triple as used throughout the Go code (`[3]float64`): channel values
in the 16-bit sample unit delivered by `image.Color.RGBA()`. -/
structure Color where
  r : ℚ
  g : ℚ
  b : ℚ
  deriving DecidableEq

/-- The tiles database `map[string][3]float64`: tile path keyed to its average
color, modelled as an association list in iteration order. -/
abbrev TileDB := List (String × Color)

/-- Embeds `Sq` from `lib/img/img.go`: the square of a number. -/
def Sq (n : ℚ) : ℚ := n * n

/-- The sum of squared channel differences: the argument passed to `math.Sqrt`
inside `Distance` in `lib/img/img.go`. -/
def distSq (p1 p2 : Color) : ℚ :=
  Sq (p2.r - p1.r) + Sq (p2.g - p1.g) + Sq (p2.b - p1.b)

/-- Embeds `Distance` from `lib/img/img.go`: Euclidean distance between two
color points, `math.Sqrt` modelled by `Real.sqrt`. -/
noncomputable def Distance (p1 p2 : Color) : ℝ := Real.sqrt (distSq p1 p2)

/-- The square of the initial value `smallest := 1000000.0` in `Nearest`
(`lib/img/img.go` line 41).  The executable scan compares squared distances,
so the initial accumulator is the squared threshold. -/
def smallest0 : ℚ := 1000000 * 1000000

/-- The scan loop of `Nearest` (`lib/img/img.go` lines 42-47): walks the
entries in iteration order tracking the current best `(filename, smallest)`.
The comparison `dist < smallest` on square roots in the source is performed
here on the squares, which is equivalent (`distance_lt_distance_iff`,
`distance_lt_million_iff`). -/
def nearestScan (target : Color) : TileDB → String × ℚ → String × ℚ
  | [], acc => acc
  | e :: rest, acc =>
      nearestScan target rest
        (if distSq target e.2 < acc.2 then (e.1, distSq target e.2) else acc)

/-- Embeds `Nearest` from `lib/img/img.go` (lines 39-50): scans the pool for
the closest entry starting from the `1000000.0` threshold, then executes
`delete(*db, filename)` (removal of the entry with the returned key; a no-op
when no entry has that key).  Returns the chosen key together with the pool
after deletion (the Go function mutates the pool in place). -/
def Nearest (target : Color) (db : TileDB) : String × TileDB :=
  let s := nearestScan target db ("", smallest0)
  (s.1, db.filter (fun e => e.1 ≠ s.1))

/-- Channel values lie in the 16-bit sample range `0..65535` produced by
`RGBA()` — the consistent color unit of the data model. -/
def boundedColor (c : Color) : Prop :=
  0 ≤ c.r ∧ c.r ≤ 65535 ∧ 0 ≤ c.g ∧ c.g ≤ 65535 ∧ 0 ≤ c.b ∧ c.b ≤ 65535

instance (c : Color) : Decidable (boundedColor c) := by
  unfold boundedColor
  infer_instance

lemma distSq_nonneg (p1 p2 : Color) : 0 ≤ distSq p1 p2 := by
  unfold distSq Sq
  have h1 := mul_self_nonneg (p2.r - p1.r)
  have h2 := mul_self_nonneg (p2.g - p1.g)
  have h3 := mul_self_nonneg (p2.b - p1.b)
  linarith

/-- Comparisons of Euclidean distances agree with comparisons of their
squares: justification for `nearestScan` comparing squared distances. -/
lemma distance_lt_distance_iff (t a b : Color) :
    Distance t a < Distance t b ↔ distSq t a < distSq t b := by
  unfold Distance
  rw [Real.sqrt_lt_sqrt_iff (by exact_mod_cast distSq_nonneg t a)]
  exact_mod_cast Iff.rfl

/-- Comparison against the source's initial threshold `1000000.0` agrees with
comparing the squared distance against `smallest0`. -/
lemma distance_lt_million_iff (t a : Color) :
    Distance t a < 1000000 ↔ distSq t a < smallest0 := by
  unfold Distance smallest0
  rw [show ((1000000 : ℝ)) = Real.sqrt (1000000 * 1000000) by
      rw [Real.sqrt_mul_self (by norm_num)],
    Real.sqrt_lt_sqrt_iff (by exact_mod_cast distSq_nonneg t a)]
  exact_mod_cast Iff.rfl

lemma distance_le_distance_iff (t a b : Color) :
    Distance t a ≤ Distance t b ↔ distSq t a ≤ distSq t b := by
  unfold Distance
  rw [Real.sqrt_le_sqrt_iff (by exact_mod_cast distSq_nonneg t b)]
  exact_mod_cast Iff.rfl

lemma sq_diff_le_bound (x y : ℚ) (hx0 : 0 ≤ x) (hx : x ≤ 65535)
    (hy0 : 0 ≤ y) (hy : y ≤ 65535) : Sq (y - x) ≤ 65535 * 65535 := by
  unfold Sq
  nlinarith

/-- Any two colors in the 16-bit channel range are closer than the scan's
initial threshold, so `Nearest` always selects an entry on such inputs. -/
lemma distSq_lt_smallest0 (a b : Color)
    (ha : boundedColor a) (hb : boundedColor b) : distSq a b < smallest0 := by
  obtain ⟨ha1, ha2, ha3, ha4, ha5, ha6⟩ := ha
  obtain ⟨hb1, hb2, hb3, hb4, hb5, hb6⟩ := hb
  have h1 := sq_diff_le_bound a.r b.r ha1 ha2 hb1 hb2
  have h2 := sq_diff_le_bound a.g b.g ha3 ha4 hb3 hb4
  have h3 := sq_diff_le_bound a.b b.b ha5 ha6 hb5 hb6
  unfold distSq smallest0 at *
  nlinarith

/-- Invariant of the scan loop: the resulting best squared distance never
exceeds the accumulator, is a lower bound for all scanned entries, and the
result is either the untouched accumulator or names an entry of the pool
realizing the resulting distance. -/
lemma nearestScan_spec (t : Color) :
    ∀ (db : TileDB) (acc : String × ℚ),
      (nearestScan t db acc).2 ≤ acc.2 ∧
      (∀ e ∈ db, (nearestScan t db acc).2 ≤ distSq t e.2) ∧
      (nearestScan t db acc = acc ∨
        ∃ c, ((nearestScan t db acc).1, c) ∈ db ∧
          distSq t c = (nearestScan t db acc).2) := by
  intro db
  induction db with
  | nil =>
    intro acc
    exact ⟨le_refl _, by simp, Or.inl rfl⟩
  | cons e rest ih =>
    intro acc
    simp only [nearestScan]
    by_cases h : distSq t e.2 < acc.2
    · rw [if_pos h]
      obtain ⟨h1, h2, h3⟩ := ih (e.1, distSq t e.2)
      refine ⟨h1.trans (le_of_lt h), ?_, ?_⟩
      · intro e' he'
        rcases List.mem_cons.mp he' with rfl | hmem
        · exact h1
        · exact h2 e' hmem
      · rcases h3 with heq | ⟨c, hc, hdc⟩
        · right
          refine ⟨e.2, ?_, ?_⟩
          · rw [heq]
            simp
          · rw [heq]
        · right
          exact ⟨c, List.mem_cons_of_mem _ hc, hdc⟩
    · rw [if_neg h]
      push_neg at h
      obtain ⟨h1, h2, h3⟩ := ih acc
      refine ⟨h1, ?_, ?_⟩
      · intro e' he'
        rcases List.mem_cons.mp he' with rfl | hmem
        · exact h1.trans h
        · exact h2 e' hmem
      · rcases h3 with heq | ⟨c, hc, hdc⟩
        · exact Or.inl heq
        · exact Or.inr ⟨c, List.mem_cons_of_mem _ hc, hdc⟩

/-- When some pool entry beats the initial threshold, `Nearest` returns a key
naming an entry of the pool whose squared distance is minimal over the pool. -/
lemma nearest_choice (t : Color) (db : TileDB)
    (hlt : ∃ e ∈ db, distSq t e.2 < smallest0) :
    ∃ c, ((Nearest t db).1, c) ∈ db ∧
      ∀ e ∈ db, distSq t c ≤ distSq t e.2 := by
  obtain ⟨e0, he0, hd0⟩ := hlt
  obtain ⟨_, h2, h3⟩ := nearestScan_spec t db ("", smallest0)
  rcases h3 with heq | ⟨c, hc, hdc⟩
  · exfalso
    have := h2 e0 he0
    rw [heq] at this
    exact absurd (lt_of_le_of_lt this hd0) (lt_irrefl _)
  · refine ⟨c, hc, fun e he => ?_⟩
    rw [hdc]
    exact h2 e he

/-- C1: for every non-empty pool and every target color (channel values in
the data model's 16-bit sample range), `Nearest` returns a key present in the
pool whose color's Euclidean distance to the target is less than or equal to
the distance of every other entry in the pool. -/
theorem C1_nearest_valid_minimal (target : Color) (db : TileDB)
    (hne : db ≠ []) (htb : boundedColor target)
    (hdb : ∀ e ∈ db, boundedColor e.2) :
    ∃ c, ((Nearest target db).1, c) ∈ db ∧
      ∀ e ∈ db, Distance target c ≤ Distance target e.2 := by
  obtain ⟨e0, he0⟩ := List.exists_mem_of_ne_nil db hne
  obtain ⟨c, hc, hmin⟩ := nearest_choice target db
    ⟨e0, he0, distSq_lt_smallest0 target e0.2 htb (hdb e0 he0)⟩
  exact ⟨c, hc, fun e he => (distance_le_distance_iff target c e.2).mpr (hmin e he)⟩

/-- Concrete pool for the C1 witness: the red/green/blue tile scenario of the
spec, in the 16-bit channel unit. -/
def dbRGB : TileDB :=
  [("red.jpg", ⟨64250, 2570, 2570⟩),
   ("green.jpg", ⟨0, 65535, 0⟩),
   ("blue.jpg", ⟨0, 0, 65535⟩)]

/-- Concrete near-red target color for the C1 and C3 witnesses. -/
def targetRed : Color := ⟨64000, 2000, 2000⟩

/-- Witness for C1 at a concrete pool and target. -/
theorem C1_witness :
    (dbRGB ≠ [] ∧ boundedColor targetRed ∧ ∀ e ∈ dbRGB, boundedColor e.2) ∧
    (∃ c, ((Nearest targetRed dbRGB).1, c) ∈ dbRGB ∧
      ∀ e ∈ dbRGB, Distance targetRed c ≤ Distance targetRed e.2) :=
  ⟨⟨by decide, by decide, by decide⟩,
    C1_nearest_valid_minimal targetRed dbRGB (by decide) (by decide) (by decide)⟩

/-- C4: `Nearest` on an empty pool returns the empty-string sentinel (the
scan never updates the accumulator and `delete` of the empty key is a no-op),
never fails, and leaves the pool empty. -/
theorem C4_nearest_empty_pool (target : Color) :
    Nearest target ([] : TileDB) = ("", ([] : TileDB)) := rfl

lemma filter_eq_self_of_key_notin (k : String) :
    ∀ (db : TileDB), k ∉ db.map Prod.fst →
      db.filter (fun e => e.1 ≠ k) = db := by
  intro db
  induction db with
  | nil => intro _; rfl
  | cons a rest ih =>
    intro hk
    rw [List.map_cons, List.mem_cons] at hk
    push_neg at hk
    rw [List.filter_cons]
    rw [if_pos (by simpa using (Ne.symm hk.1))]
    rw [ih hk.2]

/-- Deleting the (unique, by `Nodup`) entry holding key `k` shrinks the pool
by exactly one. -/
lemma filter_ne_key_length (k : String) (c : Color) :
    ∀ (db : TileDB), (db.map Prod.fst).Nodup → (k, c) ∈ db →
      (db.filter (fun e => e.1 ≠ k)).length + 1 = db.length := by
  intro db
  induction db with
  | nil => intro _ h; exact absurd h (List.not_mem_nil _)
  | cons a rest ih =>
    intro hnd hmem
    rw [List.map_cons, List.nodup_cons] at hnd
    rcases List.mem_cons.mp hmem with rfl | hmem'
    · rw [List.filter_cons, if_neg (by simp)]
      rw [filter_eq_self_of_key_notin _ rest hnd.1]
      simp
    · have hak : a.1 ≠ k := by
        intro h
        exact hnd.1 (h ▸ List.mem_map_of_mem Prod.fst hmem')
      have hlen := ih hnd.2 hmem'
      rw [List.filter_cons, if_pos (by simpa using hak)]
      simp only [List.length_cons]
      omega

/-- C3: after `Nearest` returns on a non-empty pool of distinct keys (colors
in the 16-bit channel range), the returned key is gone from the pool, every
other entry remains with its value unchanged, nothing new appears, and the
pool's size has decreased by exactly one. -/
theorem C3_nearest_removes_match (target : Color) (db : TileDB)
    (hne : db ≠ []) (htb : boundedColor target)
    (hdb : ∀ e ∈ db, boundedColor e.2)
    (hnd : (db.map Prod.fst).Nodup) :
    (∀ e ∈ (Nearest target db).2, e.1 ≠ (Nearest target db).1 ∧ e ∈ db) ∧
    (∀ e ∈ db, e.1 ≠ (Nearest target db).1 → e ∈ (Nearest target db).2) ∧
    (Nearest target db).2.length + 1 = db.length := by
  obtain ⟨e0, he0⟩ := List.exists_mem_of_ne_nil db hne
  obtain ⟨c, hc, _⟩ := nearest_choice target db
    ⟨e0, he0, distSq_lt_smallest0 target e0.2 htb (hdb e0 he0)⟩
  refine ⟨?_, ?_, ?_⟩
  · intro e he
    have := List.mem_filter.mp he
    exact ⟨by simpa using this.2, this.1⟩
  · intro e he hk
    exact List.mem_filter.mpr ⟨he, by simpa using hk⟩
  · exact filter_ne_key_length _ c db hnd hc

/-- Witness for C3 at the spec's red/green/blue pool scenario. -/
theorem C3_witness :
    (dbRGB ≠ [] ∧ boundedColor targetRed ∧ (∀ e ∈ dbRGB, boundedColor e.2) ∧
      (dbRGB.map Prod.fst).Nodup) ∧
    ((∀ e ∈ (Nearest targetRed dbRGB).2, e.1 ≠ (Nearest targetRed dbRGB).1 ∧ e ∈ dbRGB) ∧
     (∀ e ∈ dbRGB, e.1 ≠ (Nearest targetRed dbRGB).1 → e ∈ (Nearest targetRed dbRGB).2) ∧
     (Nearest targetRed dbRGB).2.length + 1 = dbRGB.length) :=
  ⟨⟨by decide, by decide, by decide, by decide⟩,
    C3_nearest_removes_match targetRed dbRGB (by decide) (by decide) (by decide) (by decide)⟩

/-- Rectangle with the field layout of Go's `image.Rectangle` bounds. -/
structure Rect where
  minX : ℤ
  minY : ℤ
  maxX : ℤ
  maxY : ℤ
  deriving DecidableEq

/-- Embeds the `image.Rect` constructor: it canonicalizes the corners so that
Min ≤ Max in each coordinate (Go swaps them when given in the wrong order). -/
def goRect (x0 y0 x1 y1 : ℤ) : Rect :=
  ⟨min x0 x1, min y0 y1, max x0 x1, max y0 y1⟩

/-- Width `Dx()` of a Go rectangle. -/
def Rect.dx (r : Rect) : ℤ := r.maxX - r.minX

/-- Height `Dy()` of a Go rectangle. -/
def Rect.dy (r : Rect) : ℤ := r.maxY - r.minY

/-- A decoded Go image: bounds plus the `RGBA()` color read at each
coordinate (the alpha component is dropped, as every call site discards
it). -/
structure GoImage where
  bounds : Rect
  px : ℤ → ℤ → Color

/-- Embeds `Resize` from `lib/img/img.go` (lines 24-36).  The result is the
bounds of the `NRGBA` image the call would return, or `none` when the call
does not return normally: `newWidth = 0` makes `bounds.Dx() / newWidth`
panic; a zero `ratio` makes `bounds.Min.X / ratio` panic (which happens
whenever `newWidth` exceeds `Dx()`, since Go integer division truncates
toward zero, modelled by `Int.tdiv`); a negative `ratio` with
`Min.Y < Max.Y` makes the sampling loop run forever (`y` moves away from
`Max.Y` while the loop tests `y < Max.Y`).  The pixel-writing loop never
changes the allocated bounds.  Note the allocation passes `Min.X / ratio`
for both corners' first two arguments, exactly as the source does. -/
def Resize (img : GoImage) (newWidth : ℤ) : Option Rect :=
  if newWidth = 0 then none
  else
    let sampleStep := Int.tdiv img.bounds.dx newWidth
    if sampleStep = 0 then none
    else if sampleStep < 0 ∧ img.bounds.minY < img.bounds.maxY then none
    else some (goRect (Int.tdiv img.bounds.minX sampleStep)
      (Int.tdiv img.bounds.minX sampleStep)
      (Int.tdiv img.bounds.maxX sampleStep)
      (Int.tdiv img.bounds.maxY sampleStep))

/-- Embeds the clamped `Resize` variant also present in the repository (the
`lib/img` revision whose comments label the unclamped version broken): the
requested width, the downsampling ratio and the derived height are each
clamped to a minimum of 1, and a degenerate source yields a 1×1 image, so
the function always returns a well-formed image `Rect(0, 0, w, h)`. -/
def ResizeClamped (img : GoImage) (newWidth : ℤ) : Rect :=
  let w := if newWidth ≤ 0 then 1 else newWidth
  if img.bounds.dx ≤ 0 then goRect 0 0 1 1
  else
    let s0 := Int.tdiv img.bounds.dx w
    let s := if s0 ≤ 0 then 1 else s0
    let h0 := Int.tdiv img.bounds.dy s
    let h := if h0 ≤ 0 then 1 else h0
    goRect 0 0 w h

lemma goRect_dims_of_pos (a b : ℤ) (ha : 0 < a) (hb : 0 < b) :
    1 ≤ (goRect 0 0 a b).dx ∧ 1 ≤ (goRect 0 0 a b).dy := by
  unfold goRect Rect.dx Rect.dy
  simp only
  rw [max_eq_right ha.le, min_eq_left ha.le, max_eq_right hb.le, min_eq_left hb.le]
  omega

/-- C2: refuted by the current `lib/img/img.go`: `Resize` has no minimum-1
clamp on the downsampling ratio, so resizing a 4-pixel-wide image to width 8
(`newWidth > sourceWidth`) computes `ratio = 4/8 = 0` and then divides by
zero in `bounds.Min.X / ratio` instead of returning a well-formed image.
The clamped revision present in the repository behaves as the claim states:
it always returns an image of at least 1×1 pixels. -/
theorem C2_resize_unclamped_division_by_zero (f : ℤ → ℤ → Color) :
    Resize ⟨⟨0, 0, 4, 4⟩, f⟩ 8 = none ∧
    ∀ (img : GoImage) (w : ℤ),
      1 ≤ (ResizeClamped img w).dx ∧ 1 ≤ (ResizeClamped img w).dy := by
  refine ⟨rfl, ?_⟩
  intro img w
  simp only [ResizeClamped]
  split_ifs with h1 h2 h3 h4 h5 h6 h7 <;>
    exact goRect_dims_of_pos _ _ (by omega) (by omega)

/-! ### Go counting loops

`for v := lo; v < hi; v += step` is embedded as the list of successive
counter values, computed with a fuel bound on the number of iterations.
For every positive step, fuel `(hi - lo).toNat` is enough, and any larger
fuel yields the same list (`loopIdxAux_eq_loopIdx`) — this is the
termination argument for the grid traversal. -/

/-- Counter values of a Go loop `for v := lo; v < hi; v += step`, bounded by
`fuel` iterations. -/
def loopIdxAux (step : ℤ) : ℕ → ℤ → ℤ → List ℤ
  | 0, _, _ => []
  | fuel + 1, lo, hi =>
      if lo < hi then lo :: loopIdxAux step fuel (lo + step) hi else []

/-- Counter values of a Go loop `for v := lo; v < hi; v += step`, with fuel
sufficient for any positive step. -/
def loopIdx (lo hi step : ℤ) : List ℤ := loopIdxAux step (hi - lo).toNat lo hi

lemma loopIdxAux_extra (step : ℤ) (hstep : 0 < step) (hi : ℤ) :
    ∀ (fuel : ℕ) (lo : ℤ), (hi - lo).toNat ≤ fuel →
      loopIdxAux step (fuel + 1) lo hi = loopIdxAux step fuel lo hi := by
  intro fuel
  induction fuel with
  | zero =>
    intro lo h
    have hge : ¬ lo < hi := by omega
    simp [loopIdxAux, hge]
  | succ f ih =>
    intro lo h
    rw [show loopIdxAux step (f + 1 + 1) lo hi =
        (if lo < hi then lo :: loopIdxAux step (f + 1) (lo + step) hi else []) from rfl,
      show loopIdxAux step (f + 1) lo hi =
        (if lo < hi then lo :: loopIdxAux step f (lo + step) hi else []) from rfl]
    by_cases hlt : lo < hi
    · rw [if_pos hlt, if_pos hlt, ih (lo + step) (by omega)]
    · rw [if_neg hlt, if_neg hlt]

/-- Termination of the loop: any fuel at least `(hi - lo).toNat` produces the
same counter sequence. -/
lemma loopIdxAux_eq_loopIdx (step : ℤ) (hstep : 0 < step) (hi lo : ℤ)
    (fuel : ℕ) (hfuel : (hi - lo).toNat ≤ fuel) :
    loopIdxAux step fuel lo hi = loopIdx lo hi step := by
  obtain ⟨k, rfl⟩ : ∃ k, fuel = (hi - lo).toNat + k :=
    ⟨fuel - (hi - lo).toNat, by omega⟩
  clear hfuel
  induction k with
  | zero => rfl
  | succ n ihn =>
    rw [show (hi - lo).toNat + (n + 1) = ((hi - lo).toNat + n) + 1 from rfl,
      loopIdxAux_extra step hstep hi ((hi - lo).toNat + n) lo (by omega)]
    exact ihn

lemma loopIdxAux_mem (step : ℤ) (hstep : 0 < step) (hi z : ℤ) :
    ∀ (fuel : ℕ) (lo : ℤ), (hi - lo).toNat ≤ fuel →
      (z ∈ loopIdxAux step fuel lo hi ↔ ∃ k : ℕ, z = lo + k * step ∧ z < hi) := by
  intro fuel
  induction fuel with
  | zero =>
    intro lo h
    simp only [loopIdxAux, List.not_mem_nil, false_iff]
    rintro ⟨k, rfl, hz⟩
    have hks : (0 : ℤ) ≤ (k : ℤ) * step := mul_nonneg (Int.natCast_nonneg k) hstep.le
    have hge : hi ≤ lo := by omega
    linarith
  | succ f ih =>
    intro lo h
    by_cases hlt : lo < hi
    · simp only [loopIdxAux, if_pos hlt, List.mem_cons]
      rw [ih (lo + step) (by omega)]
      constructor
      · rintro (rfl | ⟨k, rfl, hz⟩)
        · exact ⟨0, by push_cast; ring, hlt⟩
        · exact ⟨k + 1, by push_cast; ring, hz⟩
      · rintro ⟨k, rfl, hz⟩
        cases k with
        | zero => left; push_cast; ring
        | succ n => right; exact ⟨n, by push_cast; ring, hz⟩
    · have hno : ¬ ∃ k : ℕ, z = lo + k * step ∧ z < hi := by
        rintro ⟨k, rfl, hz⟩
        have hks : (0 : ℤ) ≤ (k : ℤ) * step := mul_nonneg (Int.natCast_nonneg k) hstep.le
        have hge : hi ≤ lo := by omega
        linarith
      simp [loopIdxAux, hlt, hno]

/-- Membership characterization of the loop counter sequence. -/
lemma loopIdx_mem (lo hi step z : ℤ) (hstep : 0 < step) :
    z ∈ loopIdx lo hi step ↔ ∃ k : ℕ, z = lo + k * step ∧ z < hi :=
  loopIdxAux_mem step hstep hi z (hi - lo).toNat lo (le_refl _)

/-- Every point of `[lo, hi)` is covered by the loop value at distance less
than `step` below it. -/
lemma loopIdx_cover (lo hi step p : ℤ) (hstep : 0 < step)
    (h1 : lo ≤ p) (h2 : p < hi) :
    ∃ x ∈ loopIdx lo hi step, x ≤ p ∧ p < x + step := by
  have hstep0 : step ≠ 0 := ne_of_gt hstep
  have hknn : 0 ≤ (p - lo) / step := Int.ediv_nonneg (by omega) hstep.le
  have hmod1 : 0 ≤ (p - lo) % step := Int.emod_nonneg _ hstep0
  have hmod2 : (p - lo) % step < step := Int.emod_lt_of_pos _ hstep
  have hdiv : step * ((p - lo) / step) + (p - lo) % step = p - lo :=
    Int.ediv_add_emod _ _
  refine ⟨lo + ((p - lo) / step) * step, ?_, by linarith, by linarith⟩
  rw [loopIdx_mem lo hi step _ hstep]
  refine ⟨((p - lo) / step).toNat, ?_, by linarith⟩
  rw [Int.toNat_of_nonneg hknn]

lemma loopIdxAux_head (step : ℤ) (hi : ℤ) (fuel : ℕ) (lo : ℤ) :
    (loopIdxAux step fuel lo hi).head? = none ∨
    (loopIdxAux step fuel lo hi).head? = some lo := by
  cases fuel with
  | zero => left; rfl
  | succ f =>
    by_cases hlt : lo < hi
    · right; simp [loopIdxAux, hlt]
    · left; simp [loopIdxAux, hlt]

lemma loopIdxAux_chain (step : ℤ) (hstep : 0 < step) (hi : ℤ) :
    ∀ (fuel : ℕ) (lo : ℤ), List.Chain' (· < ·) (loopIdxAux step fuel lo hi) := by
  intro fuel
  induction fuel with
  | zero => intro lo; simp [loopIdxAux]
  | succ f ih =>
    intro lo
    by_cases hlt : lo < hi
    · simp only [loopIdxAux, if_pos hlt]
      rw [List.chain'_cons']
      refine ⟨?_, ih (lo + step)⟩
      intro y hy
      rcases loopIdxAux_head step hi f (lo + step) with hh | hh
      · rw [hh] at hy
        simp at hy
      · rw [hh] at hy
        simp at hy
        omega
    · simp [loopIdxAux, hlt]

/-- The loop counter strictly increases on every iteration. -/
lemma loopIdx_chain (lo hi step : ℤ) (hstep : 0 < step) :
    List.Chain' (· < ·) (loopIdx lo hi step) :=
  loopIdxAux_chain step hstep hi (hi - lo).toNat lo

lemma loopIdx_nodup (lo hi step : ℤ) (hstep : 0 < step) :
    (loopIdx lo hi step).Nodup :=
  ((List.chain'_iff_pairwise.mp (loopIdx_chain lo hi step hstep)).imp ne_of_lt)

lemma loopIdxAux_length_one (hi : ℤ) :
    ∀ (fuel : ℕ) (lo : ℤ), (hi - lo).toNat ≤ fuel →
      (loopIdxAux 1 fuel lo hi).length = (hi - lo).toNat := by
  intro fuel
  induction fuel with
  | zero => intro lo h; simp [loopIdxAux]; omega
  | succ f ih =>
    intro lo h
    by_cases hlt : lo < hi
    · simp only [loopIdxAux, if_pos hlt, List.length_cons]
      rw [ih (lo + 1) (by omega)]
      omega
    · simp [loopIdxAux, hlt]
      omega

/-- Pixel count of a one-stepped double loop over `[lo, hi)`. -/
lemma loopIdx_length_one (lo hi : ℤ) :
    (loopIdx lo hi 1).length = (hi - lo).toNat :=
  loopIdxAux_length_one hi (hi - lo).toNat lo (le_refl _)

/-! ### Region averaging -/

/-- The pixel coordinates of the rectangle `[x0, x1) × [y0, y1)`, row by row:
the region over which the averaging loops run. -/
def regionPoints (x0 y0 x1 y1 : ℤ) : List (ℤ × ℤ) :=
  (loopIdx y0 y1 1).flatMap (fun y => (loopIdx x0 x1 1).map (fun x => (x, y)))

/-- Embeds `AverageColor` from `lib/img/img.go` (lines 10-21): sums each
channel over all pixels of the image and divides every channel by
`float64(bounds.Max.X * bounds.Max.Y)`.  Rational division by zero is 0
where Go float division would produce NaN; the theorems below only divide by
non-zero counts. -/
def AverageColor (img : GoImage) : Color :=
  let s := (loopIdx img.bounds.minY img.bounds.maxY 1).foldl
    (fun acc y => (loopIdx img.bounds.minX img.bounds.maxX 1).foldl
      (fun acc2 x =>
        ⟨acc2.r + (img.px x y).r, acc2.g + (img.px x y).g,
          acc2.b + (img.px x y).b⟩)
      acc)
    (⟨0, 0, 0⟩ : Color)
  let totalPixels : ℚ := ((img.bounds.maxX * img.bounds.maxY : ℤ) : ℚ)
  ⟨s.r / totalPixels, s.g / totalPixels, s.b / totalPixels⟩

/-- Embeds `calculateAverageColor` from `handlers.go` (lines 347-366): sums
each channel and counts pixels over `[startX, endX) × [startY, endY)`,
returning the zero color when the region is empty. -/
def calculateAverageColor (img : GoImage) (startX startY endX endY : ℤ) : Color :=
  let s := (loopIdx startY endY 1).foldl
    (fun acc y => (loopIdx startX endX 1).foldl
      (fun acc2 x =>
        ((⟨acc2.1.r + (img.px x y).r, acc2.1.g + (img.px x y).g,
          acc2.1.b + (img.px x y).b⟩ : Color), acc2.2 + 1))
      acc)
    ((⟨0, 0, 0⟩ : Color), (0 : ℤ))
  if s.2 = 0 then ⟨0, 0, 0⟩
  else ⟨s.1.r / (s.2 : ℚ), s.1.g / (s.2 : ℚ), s.1.b / (s.2 : ℚ)⟩

/-- Modelled from the spec's words: sums each channel over every pixel in
the region and divides by the pixel count.  Used as the comparison point for
the code's two averaging functions. -/
def specAverage (img : GoImage) (x0 y0 x1 y1 : ℤ) : Color :=
  let pts := regionPoints x0 y0 x1 y1
  let n : ℚ := (pts.length : ℚ)
  ⟨(pts.map (fun p => (img.px p.1 p.2).r)).sum / n,
   (pts.map (fun p => (img.px p.1 p.2).g)).sum / n,
   (pts.map (fun p => (img.px p.1 p.2).b)).sum / n⟩

lemma foldl_flatMap {α β γ : Type} (h : β → α → β) :
    ∀ (ys : List γ) (F : γ → List α) (a : β),
      ys.foldl (fun acc y => (F y).foldl h acc) a = (ys.flatMap F).foldl h a := by
  intro ys
  induction ys with
  | nil => intro F a; rfl
  | cons y rest ih =>
    intro F a
    simp only [List.foldl_cons, List.flatMap_cons, List.foldl_append]
    exact ih F _

lemma foldl_channels (g : ℤ × ℤ → Color) :
    ∀ (l : List (ℤ × ℤ)) (a : Color),
      l.foldl (fun acc p =>
          (⟨acc.r + (g p).r, acc.g + (g p).g, acc.b + (g p).b⟩ : Color)) a =
        ⟨a.r + (l.map (fun p => (g p).r)).sum,
         a.g + (l.map (fun p => (g p).g)).sum,
         a.b + (l.map (fun p => (g p).b)).sum⟩ := by
  intro l
  induction l with
  | nil => intro a; cases a; simp
  | cons p rest ih =>
    intro a
    simp only [List.foldl_cons, List.map_cons, List.sum_cons]
    rw [ih]
    simp only [Color.mk.injEq]
    refine ⟨by ring, by ring, by ring⟩

lemma foldl_channels_count (g : ℤ × ℤ → Color) :
    ∀ (l : List (ℤ × ℤ)) (a : Color × ℤ),
      l.foldl (fun acc p =>
          ((⟨acc.1.r + (g p).r, acc.1.g + (g p).g, acc.1.b + (g p).b⟩ : Color),
            acc.2 + 1)) a =
        (⟨a.1.r + (l.map (fun p => (g p).r)).sum,
          a.1.g + (l.map (fun p => (g p).g)).sum,
          a.1.b + (l.map (fun p => (g p).b)).sum⟩,
          a.2 + l.length) := by
  intro l
  induction l with
  | nil => intro a; cases a with | mk c n => cases c; simp
  | cons p rest ih =>
    intro a
    simp only [List.foldl_cons, List.map_cons, List.sum_cons, List.length_cons]
    rw [ih]
    simp only [Prod.mk.injEq, Color.mk.injEq]
    refine ⟨⟨by ring, by ring, by ring⟩, by push_cast; ring⟩

/-- The double summing loop of `AverageColor` computes the channel sums over
the image's pixel region. -/
lemma AverageColor_eq (img : GoImage) :
    AverageColor img =
      let pts := regionPoints img.bounds.minX img.bounds.minY
        img.bounds.maxX img.bounds.maxY
      let totalPixels : ℚ := ((img.bounds.maxX * img.bounds.maxY : ℤ) : ℚ)
      (⟨(pts.map (fun p => (img.px p.1 p.2).r)).sum / totalPixels,
        (pts.map (fun p => (img.px p.1 p.2).g)).sum / totalPixels,
        (pts.map (fun p => (img.px p.1 p.2).b)).sum / totalPixels⟩ : Color) := by
  unfold AverageColor regionPoints
  have hfold : (loopIdx img.bounds.minY img.bounds.maxY 1).foldl
      (fun acc y => (loopIdx img.bounds.minX img.bounds.maxX 1).foldl
        (fun acc2 x =>
          (⟨acc2.r + (img.px x y).r, acc2.g + (img.px x y).g,
            acc2.b + (img.px x y).b⟩ : Color))
        acc)
      (⟨0, 0, 0⟩ : Color) =
      ((loopIdx img.bounds.minY img.bounds.maxY 1).flatMap
        (fun y => (loopIdx img.bounds.minX img.bounds.maxX 1).map
          (fun x => (x, y)))).foldl
        (fun acc p =>
          (⟨acc.r + (img.px p.1 p.2).r, acc.g + (img.px p.1 p.2).g,
            acc.b + (img.px p.1 p.2).b⟩ : Color)) ⟨0, 0, 0⟩ := by
    rw [← foldl_flatMap]
    congr 1
    funext acc y
    rw [List.foldl_map]
  simp only [hfold, foldl_channels (fun p => img.px p.1 p.2)]
  simp

/-- The summing-and-counting loop of `calculateAverageColor` computes the
channel sums and the pixel count of the region. -/
lemma calculateAverageColor_eq (img : GoImage) (x0 y0 x1 y1 : ℤ) :
    calculateAverageColor img x0 y0 x1 y1 =
      let pts := regionPoints x0 y0 x1 y1
      if (pts.length : ℤ) = 0 then ⟨0, 0, 0⟩
      else (⟨(pts.map (fun p => (img.px p.1 p.2).r)).sum / (pts.length : ℚ),
        (pts.map (fun p => (img.px p.1 p.2).g)).sum / (pts.length : ℚ),
        (pts.map (fun p => (img.px p.1 p.2).b)).sum / (pts.length : ℚ)⟩ : Color) := by
  unfold calculateAverageColor regionPoints
  have hfold : (loopIdx y0 y1 1).foldl
      (fun acc y => (loopIdx x0 x1 1).foldl
        (fun acc2 x =>
          ((⟨acc2.1.r + (img.px x y).r, acc2.1.g + (img.px x y).g,
            acc2.1.b + (img.px x y).b⟩ : Color), acc2.2 + 1))
        acc)
      ((⟨0, 0, 0⟩ : Color), (0 : ℤ)) =
      ((loopIdx y0 y1 1).flatMap
        (fun y => (loopIdx x0 x1 1).map (fun x => (x, y)))).foldl
        (fun acc p =>
          ((⟨acc.1.r + (img.px p.1 p.2).r, acc.1.g + (img.px p.1 p.2).g,
            acc.1.b + (img.px p.1 p.2).b⟩ : Color), acc.2 + 1))
        ((⟨0, 0, 0⟩ : Color), (0 : ℤ)) := by
    rw [← foldl_flatMap]
    congr 1
    funext acc y
    rw [List.foldl_map]
  simp only [hfold, foldl_channels_count (fun p => img.px p.1 p.2)]
  simp only [zero_add, Int.cast_natCast]

/-- A 1×1 image whose bounds do not start at the origin: bounds
`(1, 0)-(2, 1)`, every pixel pure white in the 16-bit unit. -/
def offsetImg : GoImage := ⟨⟨1, 0, 2, 1⟩, fun _ _ => ⟨65535, 65535, 65535⟩⟩

/-- C5 counterexample: `AverageColor` divides by `Max.X * Max.Y`, not by the
pixel count, so on a 1×1 uniform white image with bounds `(1,0)-(2,1)` it
returns half white rather than the sum over the single pixel divided by the
pixel count. -/
theorem C5_counterexample_offset_bounds :
    AverageColor offsetImg ≠ specAverage offsetImg 1 0 2 1 ∧
    AverageColor offsetImg = ⟨65535 / 2, 65535 / 2, 65535 / 2⟩ ∧
    specAverage offsetImg 1 0 2 1 = ⟨65535, 65535, 65535⟩ := by
  have hpts : regionPoints 1 0 2 1 = [(1, 0)] := rfl
  have hA : AverageColor offsetImg = ⟨65535 / 2, 65535 / 2, 65535 / 2⟩ := by
    rw [AverageColor_eq]
    norm_num [offsetImg, hpts]
  have hS : specAverage offsetImg 1 0 2 1 = ⟨65535, 65535, 65535⟩ := by
    norm_num [specAverage, hpts, offsetImg]
  refine ⟨?_, hA, hS⟩
  rw [hA, hS]
  simp only [ne_eq, Color.mk.injEq]
  norm_num

/-- C5 (amended): `calculateAverageColor` returns, per channel, the region's
channel sum divided by the region's pixel count, and hence maps uniform
regions to their color; `AverageColor` does the same only for images whose
bounds start at the origin (`Min = (0,0)`, as produced by decoding an
upload), because it divides by `Max.X * Max.Y`. -/
theorem C5_average_color_amended :
    (∀ (img : GoImage) (x0 y0 x1 y1 : ℤ),
      0 < (regionPoints x0 y0 x1 y1).length →
        calculateAverageColor img x0 y0 x1 y1 = specAverage img x0 y0 x1 y1) ∧
    (∀ (img : GoImage) (x0 y0 x1 y1 : ℤ) (c : Color),
      0 < (regionPoints x0 y0 x1 y1).length →
      (∀ p ∈ regionPoints x0 y0 x1 y1, img.px p.1 p.2 = c) →
        calculateAverageColor img x0 y0 x1 y1 = c) ∧
    (∀ (img : GoImage) (c : Color),
      img.bounds.minX = 0 → img.bounds.minY = 0 →
      0 < img.bounds.maxX → 0 < img.bounds.maxY →
      (∀ p ∈ regionPoints 0 0 img.bounds.maxX img.bounds.maxY,
        img.px p.1 p.2 = c) →
        AverageColor img = c) := by
  have huni : ∀ (img : GoImage) (x0 y0 x1 y1 : ℤ) (c : Color),
      (∀ p ∈ regionPoints x0 y0 x1 y1, img.px p.1 p.2 = c) →
      0 < (regionPoints x0 y0 x1 y1).length →
      ((regionPoints x0 y0 x1 y1).map (fun p => (img.px p.1 p.2).r)).sum =
          ((regionPoints x0 y0 x1 y1).length : ℚ) * c.r ∧
      ((regionPoints x0 y0 x1 y1).map (fun p => (img.px p.1 p.2).g)).sum =
          ((regionPoints x0 y0 x1 y1).length : ℚ) * c.g ∧
      ((regionPoints x0 y0 x1 y1).map (fun p => (img.px p.1 p.2).b)).sum =
          ((regionPoints x0 y0 x1 y1).length : ℚ) * c.b := by
    intro img x0 y0 x1 y1 c hc _
    refine ⟨?_, ?_, ?_⟩ <;>
    · rw [List.map_congr_left (fun p hp => by rw [hc p hp])]
      rw [List.map_const']
      rw [List.sum_replicate, nsmul_eq_mul]
  refine ⟨?_, ?_, ?_⟩
  · intro img x0 y0 x1 y1 hn
    rw [calculateAverageColor_eq]
    simp only [specAverage]
    rw [if_neg (show ¬ ((regionPoints x0 y0 x1 y1).length : ℤ) = 0 by
      exact_mod_cast hn.ne')]
  · intro img x0 y0 x1 y1 c hn hc
    obtain ⟨hr, hg, hb⟩ := huni img x0 y0 x1 y1 c hc hn
    rw [calculateAverageColor_eq]
    simp only
    rw [if_neg (by omega), hr, hg, hb]
    have hne : ((regionPoints x0 y0 x1 y1).length : ℚ) ≠ 0 := by
      exact_mod_cast hn.ne'
    cases c
    simp only [Color.mk.injEq]
    refine ⟨mul_div_cancel_left₀ _ hne, mul_div_cancel_left₀ _ hne,
      mul_div_cancel_left₀ _ hne⟩
  · intro img c hx0 hy0 hx1 hy1 hc
    have hlen : (regionPoints 0 0 img.bounds.maxX img.bounds.maxY).length =
        img.bounds.maxY.toNat * img.bounds.maxX.toNat := by
      unfold regionPoints
      rw [List.length_flatMap]
      rw [List.map_congr_left (fun y _ => by
        rw [Function.comp_apply, List.length_map, loopIdx_length_one])]
      rw [List.map_const', List.sum_replicate, smul_eq_mul, loopIdx_length_one]
      simp
    have hn : 0 < (regionPoints 0 0 img.bounds.maxX img.bounds.maxY).length := by
      rw [hlen]
      have h1 : 0 < img.bounds.maxX.toNat := by omega
      have h2 : 0 < img.bounds.maxY.toNat := by omega
      exact Nat.mul_pos h2 h1
    obtain ⟨hr, hg, hb⟩ :=
      huni img 0 0 img.bounds.maxX img.bounds.maxY c hc hn
    rw [AverageColor_eq]
    simp only [hx0, hy0]
    rw [hr, hg, hb]
    have hcast : ((img.bounds.maxX * img.bounds.maxY : ℤ) : ℚ) =
        ((regionPoints 0 0 img.bounds.maxX img.bounds.maxY).length : ℚ) := by
      rw [hlen]
      push_cast
      rw [show ((img.bounds.maxX.toNat : ℕ) : ℚ) = ((img.bounds.maxX : ℤ) : ℚ) from by
          exact_mod_cast Int.toNat_of_nonneg hx1.le,
        show ((img.bounds.maxY.toNat : ℕ) : ℚ) = ((img.bounds.maxY : ℤ) : ℚ) from by
          exact_mod_cast Int.toNat_of_nonneg hy1.le]
      ring
    rw [hcast]
    have hne : ((regionPoints 0 0 img.bounds.maxX img.bounds.maxY).length : ℚ) ≠ 0 := by
      exact_mod_cast hn.ne'
    cases c
    simp only [Color.mk.injEq]
    refine ⟨mul_div_cancel_left₀ _ hne, mul_div_cancel_left₀ _ hne,
      mul_div_cancel_left₀ _ hne⟩

/-- A 2×2 zero-based uniform image for the C5 witness. -/
def uniImg : GoImage := ⟨⟨0, 0, 2, 2⟩, fun _ _ => ⟨7, 8, 9⟩⟩

/-- Witness for the amended C5 at a concrete uniform image. -/
theorem C5_witness :
    (0 < (regionPoints 0 0 2 2).length ∧
      (∀ p ∈ regionPoints 0 0 2 2, uniImg.px p.1 p.2 = (⟨7, 8, 9⟩ : Color))) ∧
    calculateAverageColor uniImg 0 0 2 2 = specAverage uniImg 0 0 2 2 ∧
    calculateAverageColor uniImg 0 0 2 2 = ⟨7, 8, 9⟩ ∧
    AverageColor uniImg = ⟨7, 8, 9⟩ :=
  ⟨⟨by decide, by decide⟩,
    C5_average_color_amended.1 uniImg 0 0 2 2 (by decide),
    C5_average_color_amended.2.1 uniImg 0 0 2 2 ⟨7, 8, 9⟩ (by decide) (by decide),
    C5_average_color_amended.2.2 uniImg ⟨7, 8, 9⟩ (by decide) (by decide)
      (by decide) (by decide) (by decide)⟩

/-! ### Mosaic composition (`handlers.go`) -/

/-- An NRGBA pixel value: the four uint8 components written into the output
canvas. -/
structure Px where
  r : ℕ
  g : ℕ
  b : ℕ
  a : ℕ
  deriving DecidableEq

/-- The zero value of a freshly allocated NRGBA canvas: transparent black. -/
def px0 : Px := ⟨0, 0, 0, 0⟩

/-- `image.Black` as written by `Set` into an NRGBA canvas: opaque black. -/
def blackPx : Px := ⟨0, 0, 0, 255⟩

/-- The resized tile image drawn for a matched cell: bounds plus pixel
content.  The decoded file contents behind a tile path are abstracted by the
load oracle below; the claims settled here never inspect tile pixels. -/
structure Tile where
  rect : Rect
  pix : ℤ → ℤ → Px

/-- The output canvas: `image.NewNRGBA` bounds plus current pixel values. -/
structure Canvas where
  bounds : Rect
  pix : ℤ → ℤ → Px

/-- Membership of a point in a rectangle (`image.Point.In`).  Both `Set` and
`draw.Draw` clip their writes to the destination bounds with this test. -/
def inRect (r : Rect) (p q : ℤ) : Prop :=
  r.minX ≤ p ∧ p < r.maxX ∧ r.minY ≤ q ∧ q < r.maxY

instance (r : Rect) (p q : ℤ) : Decidable (inRect r p q) := by
  unfold inRect
  infer_instance

/-- Membership in the tile cell anchored at `(x, y)` with side `ts`. -/
def inCell (x y ts p q : ℤ) : Prop :=
  x ≤ p ∧ p < x + ts ∧ y ≤ q ∧ q < y + ts

instance (x y ts p q : ℤ) : Decidable (inCell x y ts p q) := by
  unfold inCell
  infer_instance

/-- The file system and decoder behind `os.Open` + `image.Decode` +
`Resize`: the resized tile a path yields, or `none` when opening or decoding
that path fails. -/
abbrev LoadOracle := String → Option Tile

/-- Embeds `processTile` from `handlers.go` (lines 131-164): an empty path
black-fills the cell pixel by pixel (`newImage.Set` clips each write to the
canvas bounds) and reports no error; otherwise the tile is opened and
decoded — on failure the error is returned to the caller, which merely logs
it, with the canvas untouched; on success `draw.Draw` copies the resized
tile into the cell rectangle `Rect(x, y, x+ts, y+ts)` with source point
`(0, 0)`, clipped to the canvas bounds and to the tile's own bounds. -/
def processTile (load : LoadOracle) (tilePath : String) (cv : Canvas)
    (x y ts : ℤ) : Canvas :=
  if tilePath = "" then
    { cv with pix := fun p q =>
        if inCell x y ts p q ∧ inRect cv.bounds p q then blackPx
        else cv.pix p q }
  else
    match load tilePath with
    | none => cv
    | some t =>
      { cv with pix := fun p q =>
          if inCell x y ts p q ∧ inRect cv.bounds p q ∧
              inRect t.rect (p - x) (q - y) then t.pix (p - x) (q - y)
          else cv.pix p q }

/-- Embeds `CloneTilesDB`: a request-local copy of the base index (the copy
is the value itself in the list model). -/
def CloneTilesDB (db : TileDB) : TileDB := db

/-- The per-cell matching step of `generateMosaic` (`handlers.go` lines
108-117): query the pool; if the sentinel comes back, refill the pool from
the base snapshot and, when the refilled pool is non-empty, retry once. -/
def cellMatch (base : TileDB) (c : Color) (db : TileDB) : String × TileDB :=
  let r := Nearest c db
  if r.1 = "" then
    let db2 := CloneTilesDB base
    if 0 < db2.length then Nearest c db2 else ("", db2)
  else r

/-- The canvas allocation of `generateMosaic` (`handlers.go` line 93). -/
def generateMosaicAllocRect (b : Rect) : Rect :=
  goRect b.minX b.minY b.maxX b.maxY

/-- The canvas allocation of the legacy `mosaic` handler (`main.go` line
96): the second argument passed to `image.Rect` is `bounds.Min.X`, not
`bounds.Min.Y`. -/
def mosaicAllocRect (b : Rect) : Rect :=
  goRect b.minX b.minX b.maxX b.maxY

/-- The grid cells visited by `generateMosaic` (`handlers.go` lines
102-103): rows top to bottom, cells left to right, in steps of the tile
size. -/
def gridCells (b : Rect) (ts : ℤ) : List (ℤ × ℤ) :=
  (loopIdx b.minY b.maxY ts).flatMap
    (fun y => (loopIdx b.minX b.maxX ts).map (fun x => (x, y)))

/-- The cell loop of `generateMosaic`: threads the depleting pool and the
canvas through the cells; each cell samples the source pixel at its anchor
(single-pixel sampling), matches a tile and processes it, logging rather
than propagating any `processTile` error. -/
def composeLoop (base : TileDB) (load : LoadOracle) (orig : GoImage)
    (ts : ℤ) : List (ℤ × ℤ) → TileDB × Canvas → TileDB × Canvas
  | [], s => s
  | cell :: rest, (db, cv) =>
      let m := cellMatch base (orig.px cell.1 cell.2) db
      composeLoop base load orig ts rest
        (m.2, processTile load m.1 cv cell.1 cell.2 ts)

/-- Embeds `generateMosaic` from `handlers.go` (lines 89-128), up to the
final JPEG/base64 encoding (I/O): allocate the output canvas with the source
bounds, clone the tile index, walk the grid, return the composed canvas. -/
def generateMosaic (base : TileDB) (load : LoadOracle) (orig : GoImage)
    (ts : ℤ) : Canvas :=
  (composeLoop base load orig ts (gridCells orig.bounds ts)
    (CloneTilesDB base,
      ⟨generateMosaicAllocRect orig.bounds, fun _ _ => px0⟩)).2

/-- The cell-to-key assignment trace of a composition: the tile key handed
to `processTile` for each cell, in order.  It depends only on the pool
evolution, never on the load oracle. -/
def matchFold (base : TileDB) (orig : GoImage) :
    List (ℤ × ℤ) → TileDB → List ((ℤ × ℤ) × String)
  | [], _ => []
  | cell :: rest, db =>
      let m := cellMatch base (orig.px cell.1 cell.2) db
      (cell, m.1) :: matchFold base orig rest m.2

/-- Replay of `processTile` over an assignment trace. -/
def applyTrace (load : LoadOracle) (ts : ℤ)
    (tr : List ((ℤ × ℤ) × String)) (cv : Canvas) : Canvas :=
  tr.foldl (fun c e => processTile load e.2 c e.1.1 e.1.2 ts) cv

lemma composeLoop_eq_applyTrace (base : TileDB) (load : LoadOracle)
    (orig : GoImage) (ts : ℤ) :
    ∀ (cells : List (ℤ × ℤ)) (db : TileDB) (cv : Canvas),
      (composeLoop base load orig ts cells (db, cv)).2 =
        applyTrace load ts (matchFold base orig cells db) cv := by
  intro cells
  induction cells with
  | nil => intro db cv; rfl
  | cons cell rest ih =>
    intro db cv
    simp only [composeLoop, matchFold, applyTrace, List.foldl_cons]
    exact ih _ _

lemma generateMosaic_eq_applyTrace (base : TileDB) (load : LoadOracle)
    (orig : GoImage) (ts : ℤ) :
    generateMosaic base load orig ts =
      applyTrace load ts
        (matchFold base orig (gridCells orig.bounds ts) (CloneTilesDB base))
        ⟨generateMosaicAllocRect orig.bounds, fun _ _ => px0⟩ :=
  composeLoop_eq_applyTrace base load orig ts _ _ _

lemma processTile_bounds (load : LoadOracle) (k : String) (cv : Canvas)
    (x y ts : ℤ) : (processTile load k cv x y ts).bounds = cv.bounds := by
  unfold processTile
  by_cases hk : k = ""
  · simp [hk]
  · simp only [if_neg hk]
    cases load k <;> simp

/-- Pointwise description of a `processTile` write. -/
lemma processTile_pix (load : LoadOracle) (k : String) (cv : Canvas)
    (x y ts p q : ℤ) :
    (processTile load k cv x y ts).pix p q =
      if k = "" then
        (if inCell x y ts p q ∧ inRect cv.bounds p q then blackPx
          else cv.pix p q)
      else
        match load k with
        | none => cv.pix p q
        | some t =>
            if inCell x y ts p q ∧ inRect cv.bounds p q ∧
                inRect t.rect (p - x) (q - y) then t.pix (p - x) (q - y)
            else cv.pix p q := by
  unfold processTile
  by_cases hk : k = ""
  · simp [hk]
  · simp only [if_neg hk]
    cases load k <;> simp

/-- `processTile` writes only inside its cell rectangle. -/
lemma processTile_pix_outside_cell (load : LoadOracle) (k : String)
    (cv : Canvas) (x y ts p q : ℤ) (h : ¬ inCell x y ts p q) :
    (processTile load k cv x y ts).pix p q = cv.pix p q := by
  rw [processTile_pix]
  by_cases hk : k = ""
  · rw [if_pos hk, if_neg (fun hc => h hc.1)]
  · rw [if_neg hk]
    cases load k with
    | none => rfl
    | some t => exact if_neg (fun hc => h hc.1)

/-- `processTile` writes only inside the canvas bounds. -/
lemma processTile_pix_outside_bounds (load : LoadOracle) (k : String)
    (cv : Canvas) (x y ts p q : ℤ) (h : ¬ inRect cv.bounds p q) :
    (processTile load k cv x y ts).pix p q = cv.pix p q := by
  rw [processTile_pix]
  by_cases hk : k = ""
  · rw [if_pos hk, if_neg (fun hc => h hc.2)]
  · rw [if_neg hk]
    cases load k with
    | none => rfl
    | some t => exact if_neg (fun hc => h hc.2.1)

lemma applyTrace_bounds (load : LoadOracle) (ts : ℤ) :
    ∀ (tr : List ((ℤ × ℤ) × String)) (cv : Canvas),
      (applyTrace load ts tr cv).bounds = cv.bounds := by
  intro tr
  induction tr with
  | nil => intro cv; rfl
  | cons e rest ih =>
    intro cv
    simp only [applyTrace, List.foldl_cons]
    rw [show List.foldl (fun c e => processTile load e.2 c e.1.1 e.1.2 ts)
        (processTile load e.2 cv e.1.1 e.1.2 ts) rest =
      applyTrace load ts rest (processTile load e.2 cv e.1.1 e.1.2 ts) from rfl]
    rw [ih, processTile_bounds]

/-- Replaying a trace never touches a pixel outside every cell of the
trace. -/
lemma applyTrace_pix_outside_cells (load : LoadOracle) (ts p q : ℤ) :
    ∀ (tr : List ((ℤ × ℤ) × String)) (cv : Canvas),
      (∀ e ∈ tr, ¬ inCell e.1.1 e.1.2 ts p q) →
      (applyTrace load ts tr cv).pix p q = cv.pix p q := by
  intro tr
  induction tr with
  | nil => intro cv _; rfl
  | cons e rest ih =>
    intro cv h
    simp only [applyTrace, List.foldl_cons]
    rw [show List.foldl (fun c e => processTile load e.2 c e.1.1 e.1.2 ts)
        (processTile load e.2 cv e.1.1 e.1.2 ts) rest =
      applyTrace load ts rest (processTile load e.2 cv e.1.1 e.1.2 ts) from rfl]
    rw [ih _ (fun x hx => h x (List.mem_cons_of_mem _ hx)),
      processTile_pix_outside_cell _ _ _ _ _ _ _ _
        (h e (List.mem_cons_self _ _))]

/-- Replaying a trace never writes outside the canvas bounds. -/
lemma applyTrace_pix_outside_bounds (load : LoadOracle) (ts p q : ℤ) :
    ∀ (tr : List ((ℤ × ℤ) × String)) (cv : Canvas),
      ¬ inRect cv.bounds p q →
      (applyTrace load ts tr cv).pix p q = cv.pix p q := by
  intro tr
  induction tr with
  | nil => intro cv _; rfl
  | cons e rest ih =>
    intro cv h
    simp only [applyTrace, List.foldl_cons]
    rw [show List.foldl (fun c e => processTile load e.2 c e.1.1 e.1.2 ts)
        (processTile load e.2 cv e.1.1 e.1.2 ts) rest =
      applyTrace load ts rest (processTile load e.2 cv e.1.1 e.1.2 ts) from rfl]
    rw [ih _ (by rw [processTile_bounds]; exact h),
      processTile_pix_outside_bounds _ _ _ _ _ _ _ _ h]

lemma matchFold_map_fst (base : TileDB) (orig : GoImage) :
    ∀ (cells : List (ℤ × ℤ)) (db : TileDB),
      (matchFold base orig cells db).map Prod.fst = cells := by
  intro cells
  induction cells with
  | nil => intro db; rfl
  | cons cell rest ih =>
    intro db
    simp only [matchFold, List.map_cons]
    rw [ih]

lemma matchFold_empty_base (orig : GoImage) :
    ∀ (cells : List (ℤ × ℤ)),
      matchFold [] orig cells [] = cells.map (fun cell => (cell, "")) := by
  intro cells
  induction cells with
  | nil => rfl
  | cons cell rest ih =>
    simp only [matchFold, List.map_cons]
    rw [show cellMatch [] (orig.px cell.1 cell.2) [] = ("", []) from rfl]
    rw [show (("", ([] : TileDB)) : String × TileDB).2 = ([] : TileDB) from rfl, ih]

lemma gridCells_mem (b : Rect) (ts x y : ℤ) :
    (x, y) ∈ gridCells b ts ↔
      x ∈ loopIdx b.minX b.maxX ts ∧ y ∈ loopIdx b.minY b.maxY ts := by
  unfold gridCells
  rw [List.mem_flatMap]
  constructor
  · rintro ⟨y2, hy2, hm⟩
    rw [List.mem_map] at hm
    obtain ⟨x2, hx2, heq⟩ := hm
    cases heq
    exact ⟨hx2, hy2⟩
  · rintro ⟨hx, hy⟩
    exact ⟨y, hy, List.mem_map.mpr ⟨x, hx, rfl⟩⟩

lemma gridCells_nodup (b : Rect) (ts : ℤ) (hts : 0 < ts) :
    (gridCells b ts).Nodup := by
  unfold gridCells
  rw [List.nodup_flatMap]
  constructor
  · intro y _
    have hinj : Function.Injective (fun x : ℤ => (x, y)) := by
      intro a c h
      simpa using congrArg Prod.fst h
    exact (loopIdx_nodup b.minX b.maxX ts hts).map hinj
  · have hys := (List.chain'_iff_pairwise.mp
      (loopIdx_chain b.minY b.maxY ts hts)).imp (fun h => ne_of_lt h)
    refine hys.imp ?_
    intro y1 y2 hne e he1 he2
    rw [List.mem_map] at he1 he2
    obtain ⟨x1, _, rfl⟩ := he1
    obtain ⟨x2, _, heq⟩ := he2
    have hsnd : y2 = y1 := by simpa using congrArg Prod.snd heq
    exact hne hsnd.symm

lemma loopIdx_unique_cover (lo hi step : ℤ) (hstep : 0 < step) (x1 x2 p : ℤ)
    (h1 : x1 ∈ loopIdx lo hi step) (h2 : x2 ∈ loopIdx lo hi step)
    (ha : x1 ≤ p) (hb : p < x1 + step) (hc : x2 ≤ p) (hd : p < x2 + step) :
    x1 = x2 := by
  rw [loopIdx_mem lo hi step x1 hstep] at h1
  rw [loopIdx_mem lo hi step x2 hstep] at h2
  obtain ⟨k1, rfl, _⟩ := h1
  obtain ⟨k2, rfl, _⟩ := h2
  rcases Nat.lt_trichotomy k1 k2 with h | h | h
  · exfalso
    have hk : ((k1 : ℤ) + 1) ≤ (k2 : ℤ) := by exact_mod_cast h
    nlinarith [mul_le_mul_of_nonneg_right hk hstep.le]
  · rw [h]
  · exfalso
    have hk : ((k2 : ℤ) + 1) ≤ (k1 : ℤ) := by exact_mod_cast h
    nlinarith [mul_le_mul_of_nonneg_right hk hstep.le]

/-- Two grid cells that both contain a point are the same cell: the grid
stride equals the cell side. -/
lemma gridCells_unique_cover (b : Rect) (ts : ℤ) (hts : 0 < ts)
    (c1 c2 : ℤ × ℤ) (p q : ℤ)
    (h1 : c1 ∈ gridCells b ts) (h2 : c2 ∈ gridCells b ts)
    (hc1 : inCell c1.1 c1.2 ts p q) (hc2 : inCell c2.1 c2.2 ts p q) :
    c1 = c2 := by
  obtain ⟨x1, y1⟩ := c1
  obtain ⟨x2, y2⟩ := c2
  rw [gridCells_mem] at h1 h2
  obtain ⟨ha1, ha2, ha3, ha4⟩ := hc1
  obtain ⟨hb1, hb2, hb3, hb4⟩ := hc2
  have hx := loopIdx_unique_cover b.minX b.maxX ts hts x1 x2 p
    h1.1 h2.1 ha1 ha2 hb1 hb2
  have hy := loopIdx_unique_cover b.minY b.maxY ts hts y1 y2 q
    h1.2 h2.2 ha3 ha4 hb3 hb4
  rw [hx, hy]

lemma processTile_eq_of_load_none (load : LoadOracle) (k : String)
    (cv : Canvas) (x y ts : ℤ) (hk : k ≠ "") (h : load k = none) :
    processTile load k cv x y ts = cv := by
  unfold processTile
  rw [if_neg hk, h]

lemma processTile_pix_of_load_some (load : LoadOracle) (k : String)
    (cv : Canvas) (x y ts p q : ℤ) (tl : Tile) (hk : k ≠ "")
    (h : load k = some tl) :
    (processTile load k cv x y ts).pix p q =
      if inCell x y ts p q ∧ inRect cv.bounds p q ∧
          inRect tl.rect (p - x) (q - y) then tl.pix (p - x) (q - y)
      else cv.pix p q := by
  unfold processTile
  rw [if_neg hk, h]

lemma applyTrace_cons (load : LoadOracle) (ts : ℤ)
    (e : (ℤ × ℤ) × String) (tr : List ((ℤ × ℤ) × String)) (cv : Canvas) :
    applyTrace load ts (e :: tr) cv =
      applyTrace load ts tr (processTile load e.2 cv e.1.1 e.1.2 ts) := rfl

/-- Replaying a trace whose keys are all the sentinel preserves a black
pixel: every write of such a replay is a black fill. -/
lemma applyTrace_allFill_preserve (load : LoadOracle) (ts p q : ℤ) :
    ∀ (tr : List ((ℤ × ℤ) × String)) (cv : Canvas),
      (∀ e ∈ tr, e.2 = "") → cv.pix p q = blackPx →
      (applyTrace load ts tr cv).pix p q = blackPx := by
  intro tr
  induction tr with
  | nil => intro cv _ hp; exact hp
  | cons e rest ih =>
    intro cv h hp
    rw [applyTrace_cons]
    refine ih _ (fun x hx => h x (List.mem_cons_of_mem _ hx)) ?_
    rw [processTile_pix, if_pos (h e (List.mem_cons_self _ _))]
    by_cases hcov : inCell e.1.1 e.1.2 ts p q ∧ inRect cv.bounds p q
    · rw [if_pos hcov]
    · rw [if_neg hcov]
      exact hp

/-- Replaying an all-sentinel trace paints black every in-bounds pixel that
some cell of the trace covers. -/
lemma applyTrace_allFill_black (load : LoadOracle) (ts p q : ℤ) :
    ∀ (tr : List ((ℤ × ℤ) × String)) (cv : Canvas),
      (∀ e ∈ tr, e.2 = "") → inRect cv.bounds p q →
      (∃ e ∈ tr, inCell e.1.1 e.1.2 ts p q) →
      (applyTrace load ts tr cv).pix p q = blackPx := by
  intro tr
  induction tr with
  | nil =>
    intro cv _ _ hex
    obtain ⟨e, he, _⟩ := hex
    exact absurd he (List.not_mem_nil _)
  | cons e rest ih =>
    intro cv hall hin hex
    rw [applyTrace_cons]
    by_cases hcov : inCell e.1.1 e.1.2 ts p q
    · refine applyTrace_allFill_preserve load ts p q rest _
        (fun x hx => hall x (List.mem_cons_of_mem _ hx)) ?_
      rw [processTile_pix, if_pos (hall e (List.mem_cons_self _ _)),
        if_pos ⟨hcov, hin⟩]
    · obtain ⟨e2, he2, hce2⟩ := hex
      rcases List.mem_cons.mp he2 with rfl | hmem
      · exact absurd hce2 hcov
      · refine ih _ (fun x hx => hall x (List.mem_cons_of_mem _ hx)) ?_
          ⟨e2, hmem, hce2⟩
        rw [processTile_bounds]
        exact hin

/-- Failing the load of one tile path changes no pixel outside the cells
that path was assigned to: the match trace does not consult the oracle, and
each cell writes only inside its own rectangle. -/
lemma applyTrace_oracle_agree (load : LoadOracle) (t : String) (ts p q : ℤ) :
    ∀ (tr : List ((ℤ × ℤ) × String)) (cv1 cv2 : Canvas),
      cv1.bounds = cv2.bounds → cv1.pix p q = cv2.pix p q →
      (∀ e ∈ tr, e.2 = t → ¬ inCell e.1.1 e.1.2 ts p q) →
      (applyTrace (fun s => if s = t then none else load s) ts tr cv1).pix p q =
        (applyTrace load ts tr cv2).pix p q := by
  intro tr
  induction tr with
  | nil => intro cv1 cv2 _ hp _; exact hp
  | cons e rest ih =>
    intro cv1 cv2 hb hp h
    rw [applyTrace_cons, applyTrace_cons]
    refine ih _ _ ?_ ?_ (fun x hx => h x (List.mem_cons_of_mem _ hx))
    · rw [processTile_bounds, processTile_bounds]
      exact hb
    · by_cases hcell : inCell e.1.1 e.1.2 ts p q
      · have hkt : e.2 ≠ t := fun heq => (h e (List.mem_cons_self _ _) heq) hcell
        by_cases hk : e.2 = ""
        · rw [processTile_pix, processTile_pix, hb, if_pos hk, if_pos hk]
          by_cases hcov : inCell e.1.1 e.1.2 ts p q ∧ inRect cv2.bounds p q
          · rw [if_pos hcov, if_pos hcov]
          · rw [if_neg hcov, if_neg hcov]
            exact hp
        · cases hl : load e.2 with
          | none =>
            rw [processTile_eq_of_load_none _ _ _ _ _ _ hk
                (by rw [if_neg hkt]; exact hl),
              processTile_eq_of_load_none _ _ _ _ _ _ hk hl]
            exact hp
          | some tl =>
            rw [processTile_pix_of_load_some _ _ _ _ _ _ _ _ _ hk
                (by rw [if_neg hkt]; exact hl),
              processTile_pix_of_load_some _ _ _ _ _ _ _ _ _ hk hl, hb]
            by_cases hcov : inCell e.1.1 e.1.2 ts p q ∧
                inRect cv2.bounds p q ∧ inRect tl.rect (p - e.1.1) (q - e.1.2)
            · rw [if_pos hcov, if_pos hcov]
            · rw [if_neg hcov, if_neg hcov]
              exact hp
      · rw [processTile_pix_outside_cell _ _ _ _ _ _ _ _ hcell,
          processTile_pix_outside_cell _ _ _ _ _ _ _ _ hcell]
        exact hp

/-- Under an oracle that fails on path `t`, a trace each of whose entries
either carries key `t` or misses the point leaves the point untouched. -/
lemma applyTrace_skip_failed (load2 : LoadOracle) (t : String) (ht : t ≠ "")
    (hload : load2 t = none) (ts p q : ℤ) :
    ∀ (tr : List ((ℤ × ℤ) × String)) (cv : Canvas),
      (∀ e ∈ tr, e.2 = t ∨ ¬ inCell e.1.1 e.1.2 ts p q) →
      (applyTrace load2 ts tr cv).pix p q = cv.pix p q := by
  intro tr
  induction tr with
  | nil => intro cv _; rfl
  | cons e rest ih =>
    intro cv h
    rw [applyTrace_cons]
    rcases h e (List.mem_cons_self _ _) with hkt | hnc
    · have hpt : processTile load2 e.2 cv e.1.1 e.1.2 ts = cv := by
        unfold processTile
        rw [if_neg (show ¬ e.2 = "" from hkt ▸ ht), hkt, hload]
      rw [hpt]
      exact ih _ (fun x hx => h x (List.mem_cons_of_mem _ hx))
    · rw [ih _ (fun x hx => h x (List.mem_cons_of_mem _ hx)),
        processTile_pix_outside_cell _ _ _ _ _ _ _ _ hnc]

lemma generateMosaicAllocRect_eq_self (b : Rect)
    (hx : b.minX ≤ b.maxX) (hy : b.minY ≤ b.maxY) :
    generateMosaicAllocRect b = b := by
  unfold generateMosaicAllocRect goRect
  rw [min_eq_left hx, max_eq_right hx, min_eq_left hy, max_eq_right hy]

/-- C6: failing the load/decode of one matched tile path is isolated: the
composition still runs to completion, every pixel outside the cells that
path was matched to is exactly what it would have been had the load
succeeded, and the affected cells keep the canvas's uniform initial flat
fill (the zero value, which encodes as black).  The failure is logged by the
caller and never aborts the composition — `generateMosaic` is a total
function of the oracle. -/
theorem C6_tile_load_failure_isolated (base : TileDB) (load : LoadOracle)
    (t : String) (orig : GoImage) (ts : ℤ) (hts : 0 < ts) (ht : t ≠ "")
    (p q : ℤ) :
    ((∀ e ∈ matchFold base orig (gridCells orig.bounds ts) (CloneTilesDB base),
        e.2 = t → ¬ inCell e.1.1 e.1.2 ts p q) →
      (generateMosaic base (fun s => if s = t then none else load s)
          orig ts).pix p q =
        (generateMosaic base load orig ts).pix p q) ∧
    ((∃ e ∈ matchFold base orig (gridCells orig.bounds ts) (CloneTilesDB base),
        e.2 = t ∧ inCell e.1.1 e.1.2 ts p q) →
      (generateMosaic base (fun s => if s = t then none else load s)
          orig ts).pix p q = px0) := by
  constructor
  · intro h
    rw [generateMosaic_eq_applyTrace, generateMosaic_eq_applyTrace]
    exact applyTrace_oracle_agree load t ts p q _ _ _ rfl rfl h
  · rintro ⟨e0, he0, hk0, hc0⟩
    rw [generateMosaic_eq_applyTrace]
    have hcells : ∀ e ∈ matchFold base orig (gridCells orig.bounds ts)
        (CloneTilesDB base), e.2 = t ∨ ¬ inCell e.1.1 e.1.2 ts p q := by
      intro e he
      by_cases hce : inCell e.1.1 e.1.2 ts p q
      · left
        have hmapnd : ((matchFold base orig (gridCells orig.bounds ts)
            (CloneTilesDB base)).map Prod.fst).Nodup := by
          rw [matchFold_map_fst]
          exact gridCells_nodup orig.bounds ts hts
        have hmem1 : e.1 ∈ gridCells orig.bounds ts := by
          rw [← matchFold_map_fst base orig (gridCells orig.bounds ts)
            (CloneTilesDB base)]
          exact List.mem_map_of_mem Prod.fst he
        have hmem0 : e0.1 ∈ gridCells orig.bounds ts := by
          rw [← matchFold_map_fst base orig (gridCells orig.bounds ts)
            (CloneTilesDB base)]
          exact List.mem_map_of_mem Prod.fst he0
        have hceq : e.1 = e0.1 := gridCells_unique_cover orig.bounds ts hts
          e.1 e0.1 p q hmem1 hmem0 hce hc0
        have heq : e = e0 := List.inj_on_of_nodup_map hmapnd he he0 hceq
        rw [heq]
        exact hk0
      · exact Or.inr hce
    rw [applyTrace_skip_failed (fun s => if s = t then none else load s) t ht
      (by simp) ts p q _ _ hcells]

/-- C7: composing against an empty tile index paints every in-bounds pixel
with the fallback flat fill (black) and returns normally — `generateMosaic`
is total, no error value exists on this path; and exhaustion of a non-empty
pool is handled by refilling from the snapshot and retrying once. -/
theorem C7_empty_index_all_fallback (load : LoadOracle) (orig : GoImage)
    (ts : ℤ) (hts : 0 < ts) (p q : ℤ) (hin : inRect orig.bounds p q) :
    (generateMosaic [] load orig ts).pix p q = blackPx ∧
    (∀ (base : TileDB) (c : Color), base ≠ [] →
      cellMatch base c [] = Nearest c base) := by
  constructor
  · rw [generateMosaic_eq_applyTrace,
      show CloneTilesDB ([] : TileDB) = ([] : TileDB) from rfl,
      matchFold_empty_base]
    obtain ⟨h1, h2, h3, h4⟩ := hin
    apply applyTrace_allFill_black
    · intro e he
      rw [List.mem_map] at he
      obtain ⟨cell, _, rfl⟩ := he
      rfl
    · show inRect (generateMosaicAllocRect orig.bounds) p q
      rw [generateMosaicAllocRect_eq_self _ (by omega) (by omega)]
      exact ⟨h1, h2, h3, h4⟩
    · obtain ⟨x, hx, hx1, hx2⟩ :=
        loopIdx_cover orig.bounds.minX orig.bounds.maxX ts p hts h1 h2
      obtain ⟨y, hy, hy1, hy2⟩ :=
        loopIdx_cover orig.bounds.minY orig.bounds.maxY ts q hts h3 h4
      refine ⟨((x, y), ""), ?_, ⟨hx1, hx2, hy1, hy2⟩⟩
      rw [List.mem_map]
      exact ⟨(x, y), (gridCells_mem _ _ _ _).mpr ⟨hx, hy⟩, rfl⟩
  · intro base c hne
    unfold cellMatch
    rw [show Nearest c ([] : TileDB) = ("", ([] : TileDB)) from rfl]
    rw [if_pos rfl,
      if_pos (show 0 < (CloneTilesDB base).length from
        List.length_pos.mpr hne)]
    rfl

/-- C8: `generateMosaic` allocates the output with exactly the source
bounds, a 200-pixel tile on a 50×50 source visits exactly the single cell
`(0,0)` clipped by the canvas bounds, and no pixel outside the canvas
bounds is ever written.  The claim fails on the legacy `mosaic` handler in
`main.go`, which passes `bounds.Min.X` for the allocation's second
coordinate: on a source with bounds `(0, 5)-(50, 50)` it allocates
`(0, 0)-(50, 50)`, not the source bounds. -/
theorem C8_output_bounds_and_clipping :
    (∀ (base : TileDB) (load : LoadOracle) (orig : GoImage) (ts : ℤ),
      (generateMosaic base load orig ts).bounds =
        generateMosaicAllocRect orig.bounds) ∧
    (∀ b : Rect, b.minX ≤ b.maxX → b.minY ≤ b.maxY →
      generateMosaicAllocRect b = b) ∧
    gridCells ⟨0, 0, 50, 50⟩ 200 = [(0, 0)] ∧
    (∀ (base : TileDB) (load : LoadOracle) (f : ℤ → ℤ → Color) (p q : ℤ),
      ¬ inRect ⟨0, 0, 50, 50⟩ p q →
      (generateMosaic base load ⟨⟨0, 0, 50, 50⟩, f⟩ 200).pix p q = px0) ∧
    mosaicAllocRect ⟨0, 5, 50, 50⟩ = (⟨0, 0, 50, 50⟩ : Rect) ∧
    mosaicAllocRect ⟨0, 5, 50, 50⟩ ≠ (⟨0, 5, 50, 50⟩ : Rect) := by
  refine ⟨?_, generateMosaicAllocRect_eq_self, by decide, ?_, by decide,
    by decide⟩
  · intro base load orig ts
    rw [generateMosaic_eq_applyTrace, applyTrace_bounds]
  · intro base load f p q hout
    rw [generateMosaic_eq_applyTrace, applyTrace_pix_outside_bounds]
    show ¬ inRect (generateMosaicAllocRect ⟨0, 0, 50, 50⟩) p q
    rw [show generateMosaicAllocRect ⟨0, 0, 50, 50⟩ = (⟨0, 0, 50, 50⟩ : Rect)
      from by decide]
    exact hout

/-- The error payload of `sendErrorResponse` for a missing or non-positive
tile size (`handlers.go` lines 243-248, `models.ErrorResponse`). -/
structure ErrorResponse where
  error : String
  message : String
  code : ℤ
  deriving DecidableEq

/-- The 400 response rejecting a missing, unparsable or non-positive tile
size. -/
def invalidTileSize : ErrorResponse :=
  ⟨"Invalid tile size", "Tile size must be a positive integer", 400⟩

/-- The 400 response rejecting a tile size outside 5..200. -/
def tileSizeOutOfRange : ErrorResponse :=
  ⟨"Invalid tile size", "Tile size must be between 5 and 200 pixels", 400⟩

/-- Embeds the tile-size validation of `mosaicHandler` (`handlers.go` lines
242-254): the argument models the `strconv.Atoi` result (`none` on parse
failure); parse failure or a non-positive value is rejected with a 400
response, then the 5..200 range is enforced. -/
def parseTileSize (field : Option ℤ) : Except ErrorResponse ℤ :=
  match field with
  | none => Except.error invalidTileSize
  | some ts =>
      if ts ≤ 0 then Except.error invalidTileSize
      else if ts < 5 ∨ 200 < ts then Except.error tileSizeOutOfRange
      else Except.ok ts

/-- The handler's control flow around composition: `generateMosaic` is
invoked only after the tile size passed validation. -/
def mosaicHandlerModel (field : Option ℤ) (base : TileDB) (load : LoadOracle)
    (orig : GoImage) : Except ErrorResponse Canvas :=
  match parseTileSize field with
  | Except.error e => Except.error e
  | Except.ok ts => Except.ok (generateMosaic base load orig ts)

/-- C9: a request whose tile-size parameter is zero or negative is rejected
at the validation boundary with a 400 error response, and no composition
(no `generateMosaic` call) happens for that request. -/
theorem C9_nonpositive_tile_size_rejected (n : ℤ) (hn : n ≤ 0)
    (base : TileDB) (load : LoadOracle) (orig : GoImage) :
    mosaicHandlerModel (some n) base load orig =
      Except.error invalidTileSize ∧ invalidTileSize.code = 400 := by
  constructor
  · have hp : parseTileSize (some n) = Except.error invalidTileSize := by
      simp only [parseTileSize]
      rw [if_pos hn]
    unfold mosaicHandlerModel
    rw [hp]
  · rfl

/-- Witness for C9 at tile size 0. -/
theorem C9_witness :
    ((0 : ℤ) ≤ 0) ∧
    mosaicHandlerModel (some 0) [] (fun _ => none)
        ⟨⟨0, 0, 1, 1⟩, fun _ _ => ⟨0, 0, 0⟩⟩ =
      Except.error invalidTileSize :=
  ⟨by decide,
    (C9_nonpositive_tile_size_rejected 0 (by decide) [] (fun _ => none)
      ⟨⟨0, 0, 1, 1⟩, fun _ _ => ⟨0, 0, 0⟩⟩).1⟩

/-- C10: the grid traversal terminates for every positive tile size: any
fuel beyond the bound yields the same counter sequence (the loop exits),
the counters strictly increase and stay in `[lo, hi)`, and the grid has
exactly rows × columns cells — finitely many. -/
theorem C10_grid_traversal_terminates (lo hi step : ℤ) (hstep : 0 < step)
    (fuel : ℕ) (hfuel : (hi - lo).toNat ≤ fuel) (b : Rect) (ts : ℤ)
    (hts : 0 < ts) :
    loopIdxAux step fuel lo hi = loopIdx lo hi step ∧
    List.Chain' (· < ·) (loopIdx lo hi step) ∧
    (∀ z ∈ loopIdx lo hi step,
      lo ≤ z ∧ z < hi ∧ ∃ k : ℕ, z = lo + k * step) ∧
    (gridCells b ts).length =
      (loopIdx b.minY b.maxY ts).length * (loopIdx b.minX b.maxX ts).length := by
  refine ⟨loopIdxAux_eq_loopIdx step hstep hi lo fuel hfuel,
    loopIdx_chain lo hi step hstep, ?_, ?_⟩
  · intro z hz
    rw [loopIdx_mem lo hi step z hstep] at hz
    obtain ⟨k, rfl, hzlt⟩ := hz
    have hks : (0 : ℤ) ≤ (k : ℤ) * step :=
      mul_nonneg (Int.natCast_nonneg k) hstep.le
    exact ⟨by linarith, hzlt, k, rfl⟩
  · unfold gridCells
    rw [List.length_flatMap]
    rw [List.map_congr_left (fun y _ => by
      rw [Function.comp_apply, List.length_map])]
    rw [List.map_const', List.sum_replicate, smul_eq_mul]

/-- Witness for C10 at a concrete loop and grid. -/
theorem C10_witness :
    ((0 : ℤ) < 1 ∧ ((3 : ℤ) - 0).toNat ≤ 5 ∧ (0 : ℤ) < 2) ∧
    (loopIdxAux 1 5 0 3 = loopIdx 0 3 1 ∧
      List.Chain' (· < ·) (loopIdx 0 3 1) ∧
      (∀ z ∈ loopIdx 0 3 1,
        (0 : ℤ) ≤ z ∧ z < 3 ∧ ∃ k : ℕ, z = 0 + k * 1) ∧
      (gridCells ⟨0, 0, 4, 4⟩ 2).length =
        (loopIdx 0 4 2).length * (loopIdx 0 4 2).length) :=
  ⟨⟨by decide, by decide, by decide⟩,
    C10_grid_traversal_terminates 0 3 1 (by decide) 5 (by decide)
      ⟨0, 0, 4, 4⟩ 2 (by decide)⟩

/-- A load oracle for the C7 witness. -/
def loadC7 : LoadOracle := fun _ => none

/-- 2×2 source image for the C7 witness. -/
def origC7 : GoImage := ⟨⟨0, 0, 2, 2⟩, fun _ _ => ⟨1, 2, 3⟩⟩

/-- One-tile pool snapshot for the C7 witness's refill conjunct. -/
def dbC7 : TileDB := [("x", ⟨1, 2, 3⟩)]

/-- Witness for C7: empty index on a 2×2 source, plus the refill-and-retry
step on an exhausted pool with a non-empty snapshot. -/
theorem C7_witness :
    ((0 : ℤ) < 1 ∧ inRect origC7.bounds 0 0 ∧ dbC7 ≠ []) ∧
    (generateMosaic [] loadC7 origC7 1).pix 0 0 = blackPx ∧
    cellMatch dbC7 ⟨5, 5, 5⟩ [] = Nearest ⟨5, 5, 5⟩ dbC7 :=
  ⟨⟨by decide, by decide, by decide⟩,
    (C7_empty_index_all_fallback loadC7 origC7 1 (by decide) 0 0 (by decide)).1,
    (C7_empty_index_all_fallback loadC7 origC7 1 (by decide) 0 0 (by decide)).2
      dbC7 ⟨5, 5, 5⟩ (by decide)⟩

/-- One-tile base index for the C6 witness. -/
def dbC6 : TileDB := [("a", ⟨0, 0, 0⟩)]

/-- 1×1 black source image for the C6 witness. -/
def origC6 : GoImage := ⟨⟨0, 0, 1, 1⟩, fun _ _ => ⟨0, 0, 0⟩⟩

/-- A load oracle for the C6 witness. -/
def loadC6 : LoadOracle := fun _ => none

lemma traceC6_eval :
    matchFold dbC6 origC6 (gridCells origC6.bounds 1) (CloneTilesDB dbC6) =
      [((0, 0), "a")] := by
  rw [show gridCells origC6.bounds 1 = [(0, 0)] from rfl]
  norm_num [matchFold, cellMatch, Nearest, nearestScan, distSq, Sq,
    smallest0, CloneTilesDB, dbC6, origC6]

/-- Witness for C6: a single-cell composition whose one matched tile fails
to load. -/
theorem C6_witness :
    ((0 : ℤ) < 1 ∧ ("a" : String) ≠ "" ∧
      (∀ e ∈ matchFold dbC6 origC6 (gridCells origC6.bounds 1)
          (CloneTilesDB dbC6), e.2 = "a" → ¬ inCell e.1.1 e.1.2 1 5 5) ∧
      (∃ e ∈ matchFold dbC6 origC6 (gridCells origC6.bounds 1)
          (CloneTilesDB dbC6), e.2 = "a" ∧ inCell e.1.1 e.1.2 1 0 0)) ∧
    (generateMosaic dbC6 (fun s => if s = "a" then none else loadC6 s)
        origC6 1).pix 5 5 =
      (generateMosaic dbC6 loadC6 origC6 1).pix 5 5 ∧
    (generateMosaic dbC6 (fun s => if s = "a" then none else loadC6 s)
        origC6 1).pix 0 0 = px0 := by
  have h1 : ∀ e ∈ matchFold dbC6 origC6 (gridCells origC6.bounds 1)
      (CloneTilesDB dbC6), e.2 = "a" → ¬ inCell e.1.1 e.1.2 1 5 5 := by
    rw [traceC6_eval]
    intro e he hk
    obtain rfl := List.mem_singleton.mp he
    decide
  have h2 : ∃ e ∈ matchFold dbC6 origC6 (gridCells origC6.bounds 1)
      (CloneTilesDB dbC6), e.2 = "a" ∧ inCell e.1.1 e.1.2 1 0 0 := by
    rw [traceC6_eval]
    exact ⟨((0, 0), "a"), List.mem_singleton_self _, rfl, by decide⟩
  exact ⟨⟨by decide, by decide, h1, h2⟩,
    (C6_tile_load_failure_isolated dbC6 loadC6 "a" origC6 1 (by decide)
      (by decide) 5 5).1 h1,
    (C6_tile_load_failure_isolated dbC6 loadC6 "a" origC6 1 (by decide)
      (by decide) 0 0).2 h2⟩

end MosaicApp
